import Mathlib

/-!
# Verification of `share/conn.go` (package `chshare`)

A shallow embedding of the connection base type `BasicConn` and of the
process-wide identifier allocator `AllocBasicConnID`.

Conventions of the embedding:

* Go's `int32` / `int64` values are integers (`Int`); the only arithmetic in the
  file, `atomic.AddInt32(&nextBasicConnID, 1)`, is followed by an explicit
  two's-complement wrap (`wrapInt32`).
* The package-level variable `nextBasicConnID` is passed explicitly: a function
  that reads or writes it takes the current value and returns the new one.
* Atomic operations are linearizable, so a sequence of calls is modelled by the
  order in which their atomic operations take effect.
* A Go `error` is `Option String` (`none` is `nil`).
-/

namespace Chshare

/-! ## Machine integers -/

/-- Two's-complement wrap of an integer into the `int32` range `[-2^31, 2^31)`. -/
def wrapInt32 (x : Int) : Int :=
  (x + 2147483648) % 4294967296 - 2147483648

/-! ## Identifier allocator -/

/-- `AllocBasicConnID`: `atomic.AddInt32(&nextBasicConnID, 1)` adds one to the
counter (wrapping as `int32`) and returns the new value.  The argument is the
current value of `nextBasicConnID`; the result is the returned identifier paired
with the new value of `nextBasicConnID`. -/
def AllocBasicConnID (nextBasicConnID : Int) : Int × Int :=
  let v := wrapInt32 (nextBasicConnID + 1)
  (v, v)

/-- The identifiers returned by `n` calls of `AllocBasicConnID` made one after the
other, in call order, paired with the final value of `nextBasicConnID`. -/
def allocMany : Nat → Int → List Int × Int
  | 0, s => ([], s)
  | n + 1, s =>
    let r := AllocBasicConnID s
    let rest := allocMany n r.2
    (r.1 :: rest.1, rest.2)

/-! ## Values and collaborators -/

/-- A Go `error`: `none` is `nil`, `some msg` an error carrying a message. -/
abbrev GoError := Option String

/-- An operand passed in the variadic `args ...interface{}` of a formatting call:
a string or an integer. -/
inductive GoValue where
  | str (s : String)
  | int (n : Int)
deriving DecidableEq, Repr

/-- What `fmt.Sprintf` does with the verb `%d` and an `int32` operand: the decimal
digits of the value, preceded by `-` when it is negative, with no padding. -/
def fmtDecimal : Int → String
  | Int.ofNat m => String.mk (Nat.toDigits 10 m)
  | Int.negSucc m => String.mk ('-' :: Nat.toDigits 10 (m + 1))

/-- The standard-library formatter `fmt.Sprintf`, seen as a function from a format
string and its operands to the formatted string.  It is a parameter of
`InitBasicConn`: every statement below holds for whatever this function is. -/
abbrev Formatter := String → List GoValue → String

/-- The part of `fmt.Sprintf` needed to evaluate the examples: the verbs `%s`
(string operand), `%d` (integer operand) and `%v` (either), without flags, and
`%%`; operands are consumed from left to right.  Any other character, and a
directive outside this part, is copied as written. -/
def sprintfChars : List Char → List GoValue → List Char
  | [], _ => []
  | [c], _ => [c]
  | c :: d :: rest, args =>
    if c = '%' then
      if d = '%' then '%' :: sprintfChars rest args
      else
        match args with
        | GoValue.str s :: args' =>
          if d = 's' ∨ d = 'v' then s.data ++ sprintfChars rest args'
          else c :: sprintfChars (d :: rest) args
        | GoValue.int n :: args' =>
          if d = 'd' ∨ d = 'v' then (fmtDecimal n).data ++ sprintfChars rest args'
          else c :: sprintfChars (d :: rest) args
        | [] => c :: sprintfChars (d :: rest) args
    else c :: sprintfChars (d :: rest) args

/-- The formatter of the examples, on strings. -/
def sprintfBasic : Formatter :=
  fun namef args => String.mk (sprintfChars namef.data args)

/-- Modelled from the spec: the type `Logger` and its method `Fork` are declared
outside `conn.go`.  A logger is the list of name segments it is tagged with, and
forking derives a child that inherits them and adds one segment. -/
structure Logger where
  segments : List String
deriving DecidableEq, Repr

/-- Modelled from the spec: `Fork` derives a named child logger from a parent,
tagged with an added name segment. -/
def Logger.Fork (l : Logger) (name : String) : Logger :=
  { segments := l.segments ++ [name] }

/-- A value of type `chan struct{}` as far as this file and its close protocol use
it: the nil channel, a channel made and still open, or a closed channel. -/
inductive Chan where
  | nilChan
  | opened
  | closed
deriving DecidableEq, Repr

/-! ## The connection base type -/

/-- `BasicConn`, field by field.  `ChannelConn` is the embedded interface value
(nil, or a reference to an implementation), `Logger` the embedded `*Logger`
(nil, or a logger), `Lock` whether the mutex is held, `CloseOnce` whether the
`sync.Once` has fired. -/
structure BasicConn where
  ChannelConn : Option Nat
  Logger : Option Chshare.Logger
  ID : Int
  Strname : String
  Lock : Bool
  Done : Chan
  CloseOnce : Bool
  CloseErr : GoError
  NumBytesRead : Int
  NumBytesWritten : Int
deriving DecidableEq, Repr

/-- The zero value of `BasicConn`, which is what a newly declared or newly
allocated Go struct holds. -/
def BasicConn.zero : BasicConn :=
  { ChannelConn := none, Logger := none, ID := 0, Strname := "", Lock := false,
    Done := Chan.nilChan, CloseOnce := false, CloseErr := none,
    NumBytesRead := 0, NumBytesWritten := 0 }

/-- `InitBasicConn`: allocates an identifier into `ID`, sets `Strname` to
`fmt.Sprintf("[%d]", c.ID) + fmt.Sprintf(namef, args...)`, sets the logger to
`logger.Fork(c.Strname)` and `Done` to a newly made channel.  The first formatting
call has the fixed format `"[%d]"` and an `int32` operand, so it is written out as
`"[" ++ fmtDecimal c.ID ++ "]"`; the second, on the caller's format, is the
parameter `Sprintf`.  Takes the connection and the current `nextBasicConnID`;
returns the connection and the new `nextBasicConnID`.  The `logger` argument is a
valid (non-nil) logger. -/
def BasicConn.InitBasicConn (Sprintf : Formatter) (c : BasicConn) (nextBasicConnID : Int)
    (logger : Chshare.Logger) (namef : String) (args : List GoValue) : BasicConn × Int :=
  let r := AllocBasicConnID nextBasicConnID
  let c1 := { c with ID := r.1 }
  let c2 := { c1 with Strname := ("[" ++ fmtDecimal c1.ID ++ "]") ++ Sprintf namef args }
  let c3 := { c2 with Logger := some (logger.Fork c2.Strname) }
  let c4 := { c3 with Done := Chan.opened }
  (c4, r.2)

/-- `GetNumBytesRead`: `atomic.LoadInt64(&c.NumBytesRead)`.  Returns the value read
and the connection after the call. -/
def BasicConn.GetNumBytesRead (c : BasicConn) : Int × BasicConn :=
  (c.NumBytesRead, c)

/-- `GetNumBytesWritten`: `atomic.LoadInt64(&c.NumBytesWritten)`.  Returns the value
read and the connection after the call. -/
def BasicConn.GetNumBytesWritten (c : BasicConn) : Int × BasicConn :=
  (c.NumBytesWritten, c)

/-- `String`: returns `c.Strname`. -/
def BasicConn.String (c : BasicConn) : String :=
  c.Strname

/-- One call of `InitBasicConn`: the connection object it is invoked on and its
arguments. -/
structure InitCall where
  conn : BasicConn
  logger : Logger
  namef : String
  args : List GoValue

/-- A run of `InitBasicConn` calls made one after the other, each on its own
connection object: the initialised connections in call order, and the final value
of `nextBasicConnID`. -/
def initMany (Sprintf : Formatter) : List InitCall → Int → List BasicConn × Int
  | [], s => ([], s)
  | q :: qs, s =>
    let r := q.conn.InitBasicConn Sprintf s q.logger q.namef q.args
    let rest := initMany Sprintf qs r.2
    (r.1 :: rest.1, rest.2)

/-- Reads a list of decimal digit characters back as a number, most significant
digit first, starting from the value `init`. -/
def readDigits (init : Nat) (cs : List Char) : Nat :=
  cs.foldl (fun a c => 10 * a + (c.toNat - 48)) init

/-- A decimal digit character, `'0'` to `'9'`. -/
def IsDecDigit (c : Char) : Prop :=
  48 ≤ c.toNat ∧ c.toNat ≤ 57

/-! ## The close protocol -/

/-- Modelled from the spec: the two entry points of the close protocol, `Close()`
and `WaitForClose()`.  The interface `ChannelConn` declares them; their bodies are
in the concrete connection types, outside `conn.go`. -/
inductive CallKind where
  | Close
  | WaitForClose
deriving DecidableEq, Repr

/-- Modelled from the spec: how far one invocation has got in the close algorithm.
`start`: `Close()` invoked, guard not yet tried.  `won`: acquired the one-shot guard,
teardown not yet run.  `ran e`: ran the teardown action, which produced `e`.
`stored`: wrote the result to `CloseErr`.  `waiting`: blocked until the signal is
set (a loser of the race, the winner after it set the signal, or a
`WaitForClose()` call).  `returned e`: returned `e` to its caller. -/
inductive ClosePhase where
  | start
  | won
  | ran (e : GoError)
  | stored
  | waiting
  | returned (e : GoError)
deriving DecidableEq, Repr

/-- Modelled from the spec: a connection together with the invocations in flight on
it.  `teardowns` counts the executions of the transport teardown action. -/
structure CloseSys where
  conn : BasicConn
  teardowns : Nat
  threads : List (CallKind × ClosePhase)
deriving DecidableEq, Repr

/-- Modelled from the spec: the phase in which an invocation begins.  `WaitForClose()`
is only the "block until the signal is set, return the cached error" half of the
protocol. -/
def initPhase : CallKind → ClosePhase
  | CallKind.Close => ClosePhase.start
  | CallKind.WaitForClose => ClosePhase.waiting

/-- Modelled from the spec: the connection `c`, on which the teardown action has run
`runs` times so far, with the given invocations made and none of them having taken
a step. -/
def closeInit (c : BasicConn) (runs : Nat) (calls : List CallKind) : CloseSys :=
  { conn := c, teardowns := runs, threads := calls.map (fun k => (k, initPhase k)) }

/-- Modelled from the spec: one atomic step of invocation `i` in the close algorithm
of the Connection Core; `none` when the invocation is blocked or has returned.
`teardown n` is the result the transport teardown action produces when it has
already been executed `n` times.  The guard is `CloseOnce`, the signal is `Done`
(set when closed), the cached result is `CloseErr`. -/
def closeStep (teardown : Nat → GoError) (i : Nat) (s : CloseSys) : Option CloseSys :=
  match s.threads[i]? with
  | none => none
  | some (k, ClosePhase.start) =>
    if s.conn.CloseOnce then
      some { s with threads := s.threads.set i (k, ClosePhase.waiting) }
    else
      some { s with
        conn := { s.conn with CloseOnce := true }
        threads := s.threads.set i (k, ClosePhase.won) }
  | some (k, ClosePhase.won) =>
    some { s with
      teardowns := s.teardowns + 1
      threads := s.threads.set i (k, ClosePhase.ran (teardown s.teardowns)) }
  | some (k, ClosePhase.ran e) =>
    some { s with
      conn := { s.conn with CloseErr := e }
      threads := s.threads.set i (k, ClosePhase.stored) }
  | some (k, ClosePhase.stored) =>
    some { s with
      conn := { s.conn with Done := Chan.closed }
      threads := s.threads.set i (k, ClosePhase.waiting) }
  | some (k, ClosePhase.waiting) =>
    if s.conn.Done = Chan.closed then
      some { s with threads := s.threads.set i (k, ClosePhase.returned s.conn.CloseErr) }
    else none
  | some (_, ClosePhase.returned _) => none

/-- Modelled from the spec: runs a schedule, the list of the invocations that take
the successive steps; `none` when the schedule asks a blocked or finished
invocation to step. -/
def closeExec (teardown : Nat → GoError) : List Nat → CloseSys → Option CloseSys
  | [], s => some s
  | i :: rest, s =>
    match closeStep teardown i s with
    | none => none
    | some s' => closeExec teardown rest s'

/-- Number of steps an invocation in the given phase can still take, at most. -/
def phaseWeight : ClosePhase → Nat
  | ClosePhase.start => 5
  | ClosePhase.won => 4
  | ClosePhase.ran _ => 3
  | ClosePhase.stored => 2
  | ClosePhase.waiting => 1
  | ClosePhase.returned _ => 0

/-- Sum of the weights of all invocations: a bound on the steps still to come. -/
def closeMeasure (s : CloseSys) : Nat :=
  (s.threads.map (fun t => phaseWeight t.2)).sum

/-- The winner of the guard is between acquiring it and setting the signal, and the
teardown count and cached error are what its phase implies. -/
def WinnerOk (teardown : Nat → GoError) (r : Nat) (s : CloseSys) (a : ClosePhase) : Prop :=
  (a = ClosePhase.won ∧ s.teardowns = r) ∨
  (a = ClosePhase.ran (teardown r) ∧ s.teardowns = r + 1) ∨
  (a = ClosePhase.stored ∧ s.teardowns = r + 1 ∧ s.conn.CloseErr = teardown r)

/-- Invariant of the close protocol started on connection `c` with teardown count `r`:
either nothing has happened yet, or one `Close()` holds the guard and the signal is
unset, or the signal is set, teardown has run exactly once more and its result is
cached. -/
def CloseInv (teardown : Nat → GoError) (c : BasicConn) (r : Nat) (calls : List CallKind)
    (s : CloseSys) : Prop :=
  s = closeInit c r calls ∨
  (s.conn.CloseOnce = true ∧ s.conn.Done ≠ Chan.closed ∧
    ∃ (i : Nat) (a : ClosePhase), s.threads[i]? = some (CallKind.Close, a) ∧
      WinnerOk teardown r s a ∧
      ∀ (j : Nat) (k : CallKind) (p : ClosePhase), j ≠ i → s.threads[j]? = some (k, p) →
        (k = CallKind.Close ∧ p = ClosePhase.start) ∨ p = ClosePhase.waiting) ∨
  (s.conn.CloseOnce = true ∧ s.conn.Done = Chan.closed ∧ s.teardowns = r + 1 ∧
    s.conn.CloseErr = teardown r ∧
    ∀ (j : Nat) (k : CallKind) (p : ClosePhase), s.threads[j]? = some (k, p) →
      (k = CallKind.Close ∧ p = ClosePhase.start) ∨ p = ClosePhase.waiting ∨
        p = ClosePhase.returned (teardown r))

/-- A teardown action for the examples: it fails with `"EOF"` the first time it runs
and with `"again"` every later time. -/
def exampleTeardown : Nat → GoError :=
  fun n => if n = 0 then some "EOF" else some "again"

/-- A connection for the examples: the zero value after `InitBasicConn`. -/
def exampleConn : BasicConn :=
  (BasicConn.zero.InitBasicConn sprintfBasic 0 { segments := [] } "tcp" []).1

/-! # Proofs -/

/-! ## Arithmetic of the wrap -/

theorem wrapInt32_add_wrap (a b : Int) : wrapInt32 (wrapInt32 a + b) = wrapInt32 (a + b) := by
  unfold wrapInt32
  omega

theorem wrapInt32_of_inRange (a : Int) (h1 : -2147483648 ≤ a) (h2 : a ≤ 2147483647) :
    wrapInt32 a = a := by
  unfold wrapInt32
  omega

theorem wrapInt32_inj_of_close (a : Int) (d : Nat) (h0 : 0 < d) (h : d < 4294967296) :
    wrapInt32 a ≠ wrapInt32 (a + d) := by
  unfold wrapInt32
  omega

/-- The identifiers handed out by `n` successive calls from counter value `s` are
`wrap (s + 1), wrap (s + 2), ..., wrap (s + n)`. -/
theorem allocMany_fst (n : Nat) (s : Int) :
    (allocMany n s).1 = (List.range n).map (fun i => wrapInt32 (s + ((i : Nat) : Int) + 1)) := by
  induction n generalizing s with
  | zero => rfl
  | succ n ih =>
    rw [List.range_succ_eq_map]
    simp only [allocMany, AllocBasicConnID, List.map_cons, List.map_map, ih]
    refine congrArg₂ List.cons (by simp) ?_
    apply List.map_congr_left
    intro i _
    simp only [Function.comp_apply]
    rw [add_assoc (wrapInt32 (s + 1)), wrapInt32_add_wrap]
    congr 1
    push_cast
    ring

theorem allocMany_snd (n : Nat) (s : Int) (hn : 0 < n) :
    (allocMany n s).2 = wrapInt32 (s + (n : Int)) := by
  induction n generalizing s with
  | zero => omega
  | succ n ih =>
    simp only [allocMany, AllocBasicConnID]
    rcases Nat.eq_zero_or_pos n with h | h
    · subst h
      simp [allocMany]
    · rw [ih _ h, wrapInt32_add_wrap]
      congr 1
      push_cast
      ring

theorem allocMany_getElem? (n : Nat) (s : Int) (i : Nat) (a : Int)
    (h : (allocMany n s).1[i]? = some a) : i < n ∧ a = wrapInt32 (s + (i : Int) + 1) := by
  rw [allocMany_fst] at h
  simp only [List.getElem?_map, Option.map_eq_some'] at h
  obtain ⟨k, hk, rfl⟩ := h
  obtain ⟨hlt, hget⟩ := List.getElem?_eq_some.mp hk
  rw [List.getElem_range] at hget
  subst hget
  exact ⟨by simpa using hlt, rfl⟩

/-! ## Decimal formatting -/

theorem digitChar_spec (k : Nat) (hk : k < 10) :
    IsDecDigit (Nat.digitChar k) ∧ (Nat.digitChar k).toNat - 48 = k := by
  unfold IsDecDigit
  interval_cases k <;> decide

theorem readDigits_toDigitsCore (fuel n : Nat) (acc : List Char) (h : n < fuel) :
    readDigits 0 (Nat.toDigitsCore 10 fuel n acc) = readDigits n acc := by
  induction fuel generalizing n acc with
  | zero => omega
  | succ fuel ih =>
    have hd := (digitChar_spec (n % 10) (Nat.mod_lt _ (by decide))).2
    unfold Nat.toDigitsCore
    simp only
    split_ifs with h0
    · simp only [readDigits, List.foldl_cons, hd]
      congr 1
      omega
    · rw [ih (n / 10) _ (by omega)]
      simp only [readDigits, List.foldl_cons, hd]
      congr 1
      omega

theorem toDigitsCore_chars (fuel n : Nat) (acc : List Char) :
    ∀ c ∈ Nat.toDigitsCore 10 fuel n acc, c ∈ acc ∨ IsDecDigit c := by
  induction fuel generalizing n acc with
  | zero => intro c hc; exact Or.inl hc
  | succ fuel ih =>
    have hd := (digitChar_spec (n % 10) (Nat.mod_lt _ (by decide))).1
    intro c hc
    unfold Nat.toDigitsCore at hc
    simp only at hc
    split_ifs at hc with h0
    · rcases List.mem_cons.mp hc with rfl | h
      · exact Or.inr hd
      · exact Or.inl h
    · rcases ih _ _ c hc with h | h
      · rcases List.mem_cons.mp h with rfl | h'
        · exact Or.inr hd
        · exact Or.inl h'
      · exact Or.inr h

theorem toDigits_chars (n : Nat) : ∀ c ∈ Nat.toDigits 10 n, IsDecDigit c := by
  intro c hc
  rcases toDigitsCore_chars (n + 1) n [] c hc with h | h
  · simp at h
  · exact h

theorem toDigits_injective (m n : Nat) (h : Nat.toDigits 10 m = Nat.toDigits 10 n) : m = n := by
  have hm := readDigits_toDigitsCore (m + 1) m [] (by omega)
  have hn := readDigits_toDigitsCore (n + 1) n [] (by omega)
  unfold Nat.toDigits at h
  rw [h, hn] at hm
  simpa [readDigits] using hm.symm

/-- Decimal formatting of integers is injective. -/
theorem fmtDecimal_injective (i j : Int) (h : fmtDecimal i = fmtDecimal j) : i = j := by
  have hminus : ¬ IsDecDigit '-' := by unfold IsDecDigit; decide
  replace h := congrArg String.data h
  cases i with
  | ofNat m =>
    cases j with
    | ofNat n =>
      simp only [fmtDecimal] at h
      rw [toDigits_injective m n h]
    | negSucc n =>
      simp only [fmtDecimal] at h
      exact absurd (toDigits_chars m '-' (by rw [h]; exact List.mem_cons_self _ _)) hminus
  | negSucc m =>
    cases j with
    | ofNat n =>
      simp only [fmtDecimal] at h
      exact absurd (toDigits_chars n '-' (by rw [← h]; exact List.mem_cons_self _ _)) hminus
    | negSucc n =>
      simp only [fmtDecimal, List.cons.injEq, true_and] at h
      have := toDigits_injective _ _ h
      rw [Nat.add_right_cancel this]

/-- A formatted integer contains no closing bracket. -/
theorem fmtDecimal_no_bracket (i : Int) : ']' ∉ (fmtDecimal i).data := by
  have hb : ¬ IsDecDigit ']' := by unfold IsDecDigit; decide
  cases i with
  | ofNat m =>
    simp only [fmtDecimal]
    exact fun h => hb (toDigits_chars m _ h)
  | negSucc m =>
    simp only [fmtDecimal, List.mem_cons, not_or]
    exact ⟨by decide, fun h => hb (toDigits_chars _ _ h)⟩

theorem prefix_eq_of_append_sep {α : Type} (x : α) (a b l1 l2 : List α)
    (ha : x ∉ a) (hb : x ∉ b) (h : a ++ x :: l1 = b ++ x :: l2) : a = b := by
  induction a generalizing b with
  | nil =>
    cases b with
    | nil => rfl
    | cons y b =>
      simp only [List.nil_append, List.cons_append, List.cons.injEq] at h
      exact absurd (h.1 ▸ List.mem_cons_self _ _) hb
  | cons y a ih =>
    cases b with
    | nil =>
      simp only [List.nil_append, List.cons_append, List.cons.injEq] at h
      exact absurd (h.1 ▸ List.mem_cons_self _ _) ha
    | cons z b =>
      simp only [List.cons_append, List.cons.injEq] at h
      rw [h.1, ih b (fun hm => ha (List.mem_cons_of_mem _ hm))
        (fun hm => hb (List.mem_cons_of_mem _ hm)) h.2]

/-- The bracketed identifier in front of a display name determines the identifier,
whatever follows it. -/
theorem bracketed_prefix_injective (i j : Int) (l1 l2 : String)
    (h : ("[" ++ fmtDecimal i ++ "]") ++ l1 = ("[" ++ fmtDecimal j ++ "]") ++ l2) : i = j := by
  have hd := congrArg String.data h
  simp only [String.data_append, List.append_assoc] at hd
  have hd' : (fmtDecimal i).data ++ ']' :: l1.data = (fmtDecimal j).data ++ ']' :: l2.data := by
    simpa using hd
  have := prefix_eq_of_append_sep ']' _ _ _ _ (fmtDecimal_no_bracket i) (fmtDecimal_no_bracket j) hd'
  exact fmtDecimal_injective i j (String.ext this)

/-! ## Claims about the allocator -/

/-- C1 (counterexample): the returned identifiers are not strictly increasing in every
process state.  With `nextBasicConnID = 2147483646` (a legal `int32` value) two
successive calls return `2147483647` and then `-2147483648`: the later value is
smaller than the earlier one. -/
theorem alloc_not_increasing_at_wrap :
    (allocMany 2 2147483646).1 = [2147483647, -2147483648] ∧
    (allocMany 2 2147483646).2 = -2147483648 ∧
    ¬ ((2147483647 : Int) < -2147483648) := by
  decide

/-- C1 (amended): in every process state, of two calls made one after the other
(the `i`-th and the `j`-th of a run, `i < j`), the later one returns a different
identifier whenever the two are fewer than `2^32` calls apart, and a strictly
greater one whenever the counter started in the non-wrapping range and has not
passed `2^31 - 1` by the later call.  Each call returns the previous counter plus
one, wrapped as `int32`. -/
theorem alloc_later_distinct_and_increasing_before_wrap
    (s : Int) (n i j : Nat) (a b : Int) (hij : i < j)
    (ha : (allocMany n s).1[i]? = some a) (hb : (allocMany n s).1[j]? = some b) :
    a = wrapInt32 (s + (i : Int) + 1) ∧ b = wrapInt32 (s + (j : Int) + 1) ∧
    (j - i < 4294967296 → a ≠ b) ∧
    (-2147483648 ≤ s + 1 → s + (j : Int) + 1 ≤ 2147483647 → a < b) := by
  obtain ⟨_, rfl⟩ := allocMany_getElem? n s i a ha
  obtain ⟨_, rfl⟩ := allocMany_getElem? n s j b hb
  refine ⟨rfl, rfl, ?_, ?_⟩
  · intro hd
    have h := wrapInt32_inj_of_close (s + (i : Int) + 1) (j - i) (by omega) hd
    have e : s + (i : Int) + 1 + ((j - i : Nat) : Int) = s + (j : Int) + 1 := by omega
    rwa [e] at h
  · intro h1 h2
    rw [wrapInt32_of_inRange _ (by omega) (by omega), wrapInt32_of_inRange _ (by omega) h2]
    omega

/-- Witness for C1 (amended): three calls from the fresh counter, first against third. -/
theorem alloc_later_distinct_and_increasing_before_wrap_witness :
    (1 : Int) = wrapInt32 (0 + ((0 : Nat) : Int) + 1) ∧
    (3 : Int) = wrapInt32 (0 + ((2 : Nat) : Int) + 1) ∧
    (2 - 0 < 4294967296 → (1 : Int) ≠ 3) ∧
    (-2147483648 ≤ (0 : Int) + 1 → (0 : Int) + ((2 : Nat) : Int) + 1 ≤ 2147483647 →
      (1 : Int) < 3) :=
  alloc_later_distinct_and_increasing_before_wrap 0 3 0 2 1 3 (by decide) (by decide) (by decide)

/-- C2: starting from a fresh process (`nextBasicConnID = 0`), for `n ≤ 2^31 - 1`
successive calls the `k`-th call returns exactly `k` (`1 ≤ k ≤ n`): the returned
values are `1, 2, ..., n` in order, so the first is `1`, there are no gaps and no
duplicates, every value handed out is at most `n`, the value `n` is handed out, and
the counter ends at `n`. -/
theorem alloc_from_fresh_kth_is_k (n k : Nat) (hk1 : 1 ≤ k) (hkn : k ≤ n)
    (hn : n ≤ 2147483647) :
    (allocMany n 0).1[k - 1]? = some (k : Int) ∧
    (allocMany n 0).1 = (List.range n).map (fun i => ((i : Nat) : Int) + 1) ∧
    (allocMany n 0).1.Nodup ∧
    (∀ v ∈ (allocMany n 0).1, v ≤ (n : Int)) ∧
    (n : Int) ∈ (allocMany n 0).1 ∧
    (allocMany n 0).2 = (n : Int) := by
  have hl : (allocMany n 0).1 = (List.range n).map (fun i => ((i : Nat) : Int) + 1) := by
    rw [allocMany_fst]
    apply List.map_congr_left
    intro i hi
    have hi' : i < n := List.mem_range.mp hi
    rw [wrapInt32_of_inRange _ (by omega) (by omega)]
    omega
  refine ⟨?_, hl, ?_, ?_, ?_, ?_⟩
  · rw [hl, List.getElem?_map, List.getElem?_range (by omega)]
    simp only [Option.map_some']
    congr 1
    omega
  · rw [hl]
    refine (List.nodup_range n).map ?_
    intro x y hxy
    simpa using hxy
  · intro v hv
    rw [hl, List.mem_map] at hv
    obtain ⟨i, hi, rfl⟩ := hv
    have hi' : i < n := List.mem_range.mp hi
    omega
  · rw [hl, List.mem_map]
    exact ⟨n - 1, List.mem_range.mpr (by omega), by omega⟩
  · rw [allocMany_snd n 0 (by omega), wrapInt32_of_inRange _ (by omega) (by omega)]
    omega

/-- Witness for C2: 64000 allocations in a fresh process, looking at the last one. -/
theorem alloc_from_fresh_kth_is_k_witness :
    (allocMany 64000 0).1[64000 - 1]? = some ((64000 : Nat) : Int) ∧
    (allocMany 64000 0).1 = (List.range 64000).map (fun i => ((i : Nat) : Int) + 1) ∧
    (allocMany 64000 0).1.Nodup ∧
    (∀ v ∈ (allocMany 64000 0).1, v ≤ ((64000 : Nat) : Int)) ∧
    ((64000 : Nat) : Int) ∈ (allocMany 64000 0).1 ∧
    (allocMany 64000 0).2 = ((64000 : Nat) : Int) :=
  alloc_from_fresh_kth_is_k 64000 64000 (by decide) (by decide) (by decide)


/-! ## Claims about `InitBasicConn`, the counters and `String` -/

theorem initMany_ids (Sprintf : Formatter) (qs : List InitCall) (s : Int) :
    (initMany Sprintf qs s).1.map BasicConn.ID = (allocMany qs.length s).1 := by
  induction qs generalizing s with
  | nil => rfl
  | cons q qs ih =>
    simp only [initMany, allocMany, List.length_cons, List.map_cons]
    exact congrArg₂ List.cons rfl (ih _)

/-- C3 (counterexample): with `nextBasicConnID = 6`, label `"tcp %s:%d"` and arguments
`("10.0.0.1", 8080)` the connection gets identifier `7` and display name
`"[7]tcp 10.0.0.1:8080"`, which is not `"[7] tcp 10.0.0.1:8080"`: no space is put
between the closing bracket and the label. -/
theorem initBasicConn_name_has_no_space :
    (BasicConn.InitBasicConn sprintfBasic BasicConn.zero 6 ⟨[]⟩ "tcp %s:%d"
      [GoValue.str "10.0.0.1", GoValue.int 8080]).1.ID = 7 ∧
    sprintfBasic "tcp %s:%d" [GoValue.str "10.0.0.1", GoValue.int 8080] = "tcp 10.0.0.1:8080" ∧
    (BasicConn.InitBasicConn sprintfBasic BasicConn.zero 6 ⟨[]⟩ "tcp %s:%d"
      [GoValue.str "10.0.0.1", GoValue.int 8080]).1.String = "[7]tcp 10.0.0.1:8080" ∧
    (BasicConn.InitBasicConn sprintfBasic BasicConn.zero 6 ⟨[]⟩ "tcp %s:%d"
      [GoValue.str "10.0.0.1", GoValue.int 8080]).1.Strname ≠ "[7] tcp 10.0.0.1:8080" := by
  decide

/-- C3 (amended): for every connection initialised by `InitBasicConn`, with `id` the
identifier allocated by the call and `L` the result of formatting the label with
its arguments, the display name (`Strname`, also returned by `String()`) is
`"[" + decimal(id) + "]" + L`, the label following the closing bracket directly; in
particular label `"tcp %s:%d"` with arguments `("10.0.0.1", 8080)` and identifier 7
yields `"[7]tcp 10.0.0.1:8080"`. -/
theorem initBasicConn_name_format (Sprintf : Formatter) (c : BasicConn) (s : Int)
    (logger : Logger) (namef : String) (args : List GoValue) :
    (c.InitBasicConn Sprintf s logger namef args).1.ID = (AllocBasicConnID s).1 ∧
    (c.InitBasicConn Sprintf s logger namef args).1.Strname =
      "[" ++ fmtDecimal (AllocBasicConnID s).1 ++ "]" ++ Sprintf namef args ∧
    (c.InitBasicConn Sprintf s logger namef args).1.String =
      (c.InitBasicConn Sprintf s logger namef args).1.Strname ∧
    (BasicConn.InitBasicConn sprintfBasic BasicConn.zero 6 ⟨[]⟩ "tcp %s:%d"
      [GoValue.str "10.0.0.1", GoValue.int 8080]).1.String = "[7]tcp 10.0.0.1:8080" :=
  ⟨rfl, rfl, rfl, by decide⟩

/-- C6: `GetNumBytesRead` returns the `NumBytesRead` counter and `GetNumBytesWritten`
the `NumBytesWritten` counter, neither changes the connection, and a second call
right after the first returns the same value. -/
theorem getNumBytes_reads_own_counter (c : BasicConn) :
    c.GetNumBytesRead.1 = c.NumBytesRead ∧
    c.GetNumBytesWritten.1 = c.NumBytesWritten ∧
    c.GetNumBytesRead.2 = c ∧
    c.GetNumBytesWritten.2 = c ∧
    c.GetNumBytesRead.2.GetNumBytesRead.1 = c.GetNumBytesRead.1 ∧
    c.GetNumBytesWritten.2.GetNumBytesWritten.1 = c.GetNumBytesWritten.1 :=
  ⟨rfl, rfl, rfl, rfl, rfl, rfl⟩

/-- C7 (counterexample): a connection object whose counters hold 5 and 9 and whose
`CloseErr` holds an error still holds them after `InitBasicConn`: the getters return
5 and 9, not 0, and `CloseErr` is not nil. -/
theorem initBasicConn_does_not_zero_counters :
    (({ BasicConn.zero with NumBytesRead := 5, NumBytesWritten := 9, CloseErr := some "EOF" } :
        BasicConn).InitBasicConn sprintfBasic 0 ⟨[]⟩ "x" []).1.GetNumBytesRead.1 = 5 ∧
    (({ BasicConn.zero with NumBytesRead := 5, NumBytesWritten := 9, CloseErr := some "EOF" } :
        BasicConn).InitBasicConn sprintfBasic 0 ⟨[]⟩ "x" []).1.GetNumBytesWritten.1 = 9 ∧
    (({ BasicConn.zero with NumBytesRead := 5, NumBytesWritten := 9, CloseErr := some "EOF" } :
        BasicConn).InitBasicConn sprintfBasic 0 ⟨[]⟩ "x" []).1.CloseErr = some "EOF" := by
  decide

/-- C7 (amended): for every connection object whose counters are zero and whose
`CloseErr` is nil before the call, as in the zero value a new object holds, after
`InitBasicConn` both getters return 0 and `CloseErr` is nil; the call makes `Done` a
new open channel and leaves the once-guard as it was. -/
theorem initBasicConn_keeps_zero_counters (Sprintf : Formatter) (c : BasicConn) (s : Int)
    (logger : Logger) (namef : String) (args : List GoValue)
    (hr : c.NumBytesRead = 0) (hw : c.NumBytesWritten = 0) (he : c.CloseErr = none) :
    (c.InitBasicConn Sprintf s logger namef args).1.GetNumBytesRead.1 = 0 ∧
    (c.InitBasicConn Sprintf s logger namef args).1.GetNumBytesWritten.1 = 0 ∧
    (c.InitBasicConn Sprintf s logger namef args).1.CloseErr = none ∧
    (c.InitBasicConn Sprintf s logger namef args).1.Done = Chan.opened ∧
    (c.InitBasicConn Sprintf s logger namef args).1.CloseOnce = c.CloseOnce :=
  ⟨hr, hw, he, rfl, rfl⟩

/-- Witness for C7 (amended): the zero value of `BasicConn`. -/
theorem initBasicConn_keeps_zero_counters_witness :
    (BasicConn.zero.InitBasicConn sprintfBasic 0 ⟨[]⟩ "x" []).1.GetNumBytesRead.1 = 0 ∧
    (BasicConn.zero.InitBasicConn sprintfBasic 0 ⟨[]⟩ "x" []).1.GetNumBytesWritten.1 = 0 ∧
    (BasicConn.zero.InitBasicConn sprintfBasic 0 ⟨[]⟩ "x" []).1.CloseErr = none ∧
    (BasicConn.zero.InitBasicConn sprintfBasic 0 ⟨[]⟩ "x" []).1.Done = Chan.opened ∧
    (BasicConn.zero.InitBasicConn sprintfBasic 0 ⟨[]⟩ "x" []).1.CloseOnce =
      BasicConn.zero.CloseOnce :=
  initBasicConn_keeps_zero_counters sprintfBasic BasicConn.zero 0 ⟨[]⟩ "x" [] rfl rfl rfl

/-- C8: each `InitBasicConn` performs one allocation: the new `nextBasicConnID` is the
old one plus 1 in `int32` arithmetic (exactly the old one plus 1 whenever that is
at most `2^31 - 1`), and the connection's `ID` is that new value.  So in a run of
initialisations the `i`-th and the `j`-th connection (`i < j`) have different IDs
when fewer than `2^32` initialisations apart, and two initialised back to back
have consecutive IDs (the later is the earlier plus 1 in `int32` arithmetic). -/
theorem initBasicConn_allocates_once (Sprintf : Formatter) (c : BasicConn) (s : Int)
    (logger : Logger) (namef : String) (args : List GoValue)
    (qs : List InitCall) (i j : Nat) (ci cj : BasicConn) (hij : i < j)
    (hi : (initMany Sprintf qs s).1[i]? = some ci)
    (hj : (initMany Sprintf qs s).1[j]? = some cj) :
    (c.InitBasicConn Sprintf s logger namef args).2 = wrapInt32 (s + 1) ∧
    (c.InitBasicConn Sprintf s logger namef args).2 = (AllocBasicConnID s).2 ∧
    (-2147483648 ≤ s + 1 → s + 1 ≤ 2147483647 →
      (c.InitBasicConn Sprintf s logger namef args).2 = s + 1) ∧
    (c.InitBasicConn Sprintf s logger namef args).1.ID =
      (c.InitBasicConn Sprintf s logger namef args).2 ∧
    (j - i < 4294967296 → ci.ID ≠ cj.ID) ∧
    (j = i + 1 → cj.ID = wrapInt32 (ci.ID + 1)) ∧
    (j = i + 1 → ci.ID < 2147483647 → cj.ID = ci.ID + 1) := by
  have hids := initMany_ids Sprintf qs s
  have hi' : (allocMany qs.length s).1[i]? = some ci.ID := by
    rw [← hids, List.getElem?_map, hi]; rfl
  have hj' : (allocMany qs.length s).1[j]? = some cj.ID := by
    rw [← hids, List.getElem?_map, hj]; rfl
  obtain ⟨_, hci⟩ := allocMany_getElem? _ _ _ _ hi'
  obtain ⟨_, hcj⟩ := allocMany_getElem? _ _ _ _ hj'
  have hstep : j = i + 1 → cj.ID = wrapInt32 (ci.ID + 1) := by
    intro h
    rw [hci, hcj, wrapInt32_add_wrap, h]
    congr 1
    push_cast
    ring
  have hrange : -2147483648 ≤ ci.ID := by
    rw [hci]; unfold wrapInt32; omega
  refine ⟨rfl, rfl, ?_, rfl, ?_, hstep, ?_⟩
  · intro h1 h2
    exact wrapInt32_of_inRange _ h1 h2
  · intro hd
    have h := wrapInt32_inj_of_close (s + (i : Int) + 1) (j - i) (by omega) hd
    have e : s + (i : Int) + 1 + ((j - i : Nat) : Int) = s + (j : Int) + 1 := by omega
    rw [e, ← hci, ← hcj] at h
    exact h
  · intro h hlt
    rw [hstep h, wrapInt32_of_inRange _ (by omega) (by omega)]

/-- Witness for C8: two initialisations made back to back with `nextBasicConnID = 6`. -/
theorem initBasicConn_allocates_once_witness :
    (BasicConn.zero.InitBasicConn sprintfBasic 6 ⟨[]⟩ "a" []).1.ID ≠
      (BasicConn.zero.InitBasicConn sprintfBasic 7 ⟨[]⟩ "b" []).1.ID ∧
    (BasicConn.zero.InitBasicConn sprintfBasic 7 ⟨[]⟩ "b" []).1.ID =
      (BasicConn.zero.InitBasicConn sprintfBasic 6 ⟨[]⟩ "a" []).1.ID + 1 :=
  have h := initBasicConn_allocates_once sprintfBasic BasicConn.zero 6 ⟨[]⟩ "a" []
    [⟨BasicConn.zero, ⟨[]⟩, "a", []⟩, ⟨BasicConn.zero, ⟨[]⟩, "b", []⟩] 0 1
    (BasicConn.zero.InitBasicConn sprintfBasic 6 ⟨[]⟩ "a" []).1
    (BasicConn.zero.InitBasicConn sprintfBasic 7 ⟨[]⟩ "b" []).1
    (by decide) (by decide) (by decide)
  ⟨h.2.2.2.2.1 (by decide), h.2.2.2.2.2.2 rfl (by decide)⟩

/-- C9: two connections initialised by `InitBasicConn` whose IDs differ have different
display names (`Strname`, and so `String()`), whatever the two formatted labels
are. -/
theorem initBasicConn_names_differ (Sprintf : Formatter) (c1 c2 : BasicConn) (s1 s2 : Int)
    (logger1 logger2 : Logger) (namef1 namef2 : String) (args1 args2 : List GoValue)
    (hid : (c1.InitBasicConn Sprintf s1 logger1 namef1 args1).1.ID ≠
      (c2.InitBasicConn Sprintf s2 logger2 namef2 args2).1.ID) :
    (c1.InitBasicConn Sprintf s1 logger1 namef1 args1).1.Strname ≠
      (c2.InitBasicConn Sprintf s2 logger2 namef2 args2).1.Strname ∧
    (c1.InitBasicConn Sprintf s1 logger1 namef1 args1).1.String ≠
      (c2.InitBasicConn Sprintf s2 logger2 namef2 args2).1.String := by
  have key : (c1.InitBasicConn Sprintf s1 logger1 namef1 args1).1.Strname ≠
      (c2.InitBasicConn Sprintf s2 logger2 namef2 args2).1.Strname := by
    intro h
    exact hid (bracketed_prefix_injective _ _ _ _ h)
  exact ⟨key, key⟩

/-- Witness for C9: identifiers 1 and 12, with labels `"2]x"` and `"]x"` that begin
with a digit and a bracket; the names are `"[1]2]x"` and `"[12]]x"`. -/
theorem initBasicConn_names_differ_witness :
    (BasicConn.zero.InitBasicConn sprintfBasic 0 ⟨[]⟩ "2]x" []).1.Strname ≠
      (BasicConn.zero.InitBasicConn sprintfBasic 11 ⟨[]⟩ "]x" []).1.Strname ∧
    (BasicConn.zero.InitBasicConn sprintfBasic 0 ⟨[]⟩ "2]x" []).1.String ≠
      (BasicConn.zero.InitBasicConn sprintfBasic 11 ⟨[]⟩ "]x" []).1.String :=
  initBasicConn_names_differ sprintfBasic BasicConn.zero BasicConn.zero 0 11 ⟨[]⟩ ⟨[]⟩
    "2]x" "]x" [] [] (by decide)

/-- C10: `InitBasicConn` writes only `ID`, `Strname`, `Logger` and `Done` (and the global
counter): the result is the prior connection with those four fields replaced, so
`NumBytesRead`, `NumBytesWritten` and `CloseErr` are as before.  Calling it again on
the connection gives a different ID and a different name, and still the prior
counters and close error. -/
theorem initBasicConn_frame (Sprintf : Formatter) (c : BasicConn) (s : Int)
    (logger logger2 : Logger) (namef namef2 : String) (args args2 : List GoValue) :
    (c.InitBasicConn Sprintf s logger namef args).1 =
      { c with
        ID := wrapInt32 (s + 1)
        Strname := "[" ++ fmtDecimal (wrapInt32 (s + 1)) ++ "]" ++ Sprintf namef args
        Logger := some (logger.Fork
          ("[" ++ fmtDecimal (wrapInt32 (s + 1)) ++ "]" ++ Sprintf namef args))
        Done := Chan.opened } ∧
    (c.InitBasicConn Sprintf s logger namef args).1.NumBytesRead = c.NumBytesRead ∧
    (c.InitBasicConn Sprintf s logger namef args).1.NumBytesWritten = c.NumBytesWritten ∧
    (c.InitBasicConn Sprintf s logger namef args).1.CloseErr = c.CloseErr ∧
    ((c.InitBasicConn Sprintf s logger namef args).1.InitBasicConn Sprintf
        (c.InitBasicConn Sprintf s logger namef args).2 logger2 namef2 args2).1.ID ≠
      (c.InitBasicConn Sprintf s logger namef args).1.ID ∧
    ((c.InitBasicConn Sprintf s logger namef args).1.InitBasicConn Sprintf
        (c.InitBasicConn Sprintf s logger namef args).2 logger2 namef2 args2).1.Strname ≠
      (c.InitBasicConn Sprintf s logger namef args).1.Strname ∧
    ((c.InitBasicConn Sprintf s logger namef args).1.InitBasicConn Sprintf
        (c.InitBasicConn Sprintf s logger namef args).2 logger2 namef2 args2).1.NumBytesRead =
      c.NumBytesRead ∧
    ((c.InitBasicConn Sprintf s logger namef args).1.InitBasicConn Sprintf
        (c.InitBasicConn Sprintf s logger namef args).2 logger2 namef2 args2).1.NumBytesWritten =
      c.NumBytesWritten ∧
    ((c.InitBasicConn Sprintf s logger namef args).1.InitBasicConn Sprintf
        (c.InitBasicConn Sprintf s logger namef args).2 logger2 namef2 args2).1.CloseErr =
      c.CloseErr := by
  have hne : wrapInt32 (wrapInt32 (s + 1) + 1) ≠ wrapInt32 (s + 1) := by
    unfold wrapInt32
    omega
  refine ⟨rfl, rfl, rfl, rfl, hne, ?_, rfl, rfl, rfl⟩
  intro h
  exact hne (bracketed_prefix_injective _ _ _ _ h)


/-! ## The close protocol -/

theorem getElem?_set_cases {α : Type} (l : List α) (i j : Nat) (a b : α)
    (h : (l.set i a)[j]? = some b) : (j = i ∧ b = a) ∨ (j ≠ i ∧ l[j]? = some b) := by
  by_cases hij : i = j
  · subst hij
    rw [List.getElem?_set] at h
    simp only [if_true] at h
    split_ifs at h
    · exact Or.inl ⟨rfl, (Option.some.inj h).symm⟩
  · rw [List.getElem?_set_ne hij] at h
    exact Or.inr ⟨fun e => hij e.symm, h⟩

theorem getElem?_set_self_of_some {α : Type} (l : List α) (i : Nat) (a b : α)
    (h : l[i]? = some b) : (l.set i a)[i]? = some a := by
  have hlt : i < l.length := (List.getElem?_eq_some.mp h).1
  rw [List.getElem?_set]
  simp [hlt]

theorem closeInit_thread (c : BasicConn) (r : Nat) (calls : List CallKind) (j : Nat)
    (k : CallKind) (p : ClosePhase) (h : (closeInit c r calls).threads[j]? = some (k, p)) :
    p = initPhase k ∧ calls[j]? = some k := by
  simp only [closeInit, List.getElem?_map, Option.map_eq_some'] at h
  obtain ⟨k', hk', he⟩ := h
  simp only [Prod.mk.injEq] at he
  obtain ⟨rfl, rfl⟩ := he
  exact ⟨rfl, hk'⟩

theorem closeInit_thread_idle (c : BasicConn) (r : Nat) (calls : List CallKind) (j : Nat)
    (k : CallKind) (p : ClosePhase) (h : (closeInit c r calls).threads[j]? = some (k, p)) :
    (k = CallKind.Close ∧ p = ClosePhase.start) ∨ p = ClosePhase.waiting := by
  obtain ⟨rfl, _⟩ := closeInit_thread c r calls j k p h
  cases k
  · exact Or.inl ⟨rfl, rfl⟩
  · exact Or.inr rfl

/-- Every step of the close protocol keeps the invariant. -/
theorem closeStep_inv (td : Nat → GoError) (c : BasicConn) (r : Nat) (calls : List CallKind)
    (hc1 : c.CloseOnce = false) (hc2 : c.Done ≠ Chan.closed) (i : Nat) (s s' : CloseSys)
    (hinv : CloseInv td c r calls s) (hstep : closeStep td i s = some s') :
    CloseInv td c r calls s' := by
  unfold closeStep at hstep
  cases hth : s.threads[i]? with
  | none => simp [hth] at hstep
  | some t =>
    obtain ⟨k, p⟩ := t
    rw [hth] at hstep
    cases p with
    | start =>
      simp only at hstep
      by_cases hg : s.conn.CloseOnce = true
      · rw [if_pos hg] at hstep
        injection hstep with hstep
        subst hstep
        rcases hinv with hA | ⟨hB1, hB2, i0, a, hi0, hw, hoth⟩ | ⟨hC1, hC2, hC3, hC4, hall⟩
        · subst hA
          simp [closeInit, hc1] at hg
        · have hne : i ≠ i0 := by
            rintro rfl
            rw [hth] at hi0
            simp only [Option.some.injEq, Prod.mk.injEq] at hi0
            obtain ⟨_, rfl⟩ := hi0
            rcases hw with ⟨h, _⟩ | ⟨h, _⟩ | ⟨h, _⟩ <;> cases h
          refine Or.inr (Or.inl ⟨hB1, hB2, i0, a, ?_, hw, ?_⟩)
          · simp only
            rw [List.getElem?_set_ne hne]
            exact hi0
          · intro j k' p' hj hjp
            rcases getElem?_set_cases _ _ _ _ _ hjp with ⟨_, he⟩ | ⟨_, hold⟩
            · simp only [Prod.mk.injEq] at he
              exact Or.inr he.2
            · exact hoth j k' p' hj hold
        · refine Or.inr (Or.inr ⟨hC1, hC2, hC3, hC4, ?_⟩)
          intro j k' p' hjp
          rcases getElem?_set_cases _ _ _ _ _ hjp with ⟨_, he⟩ | ⟨_, hold⟩
          · simp only [Prod.mk.injEq] at he
            exact Or.inr (Or.inl he.2)
          · exact hall j k' p' hold
      · rw [if_neg hg] at hstep
        injection hstep with hstep
        subst hstep
        rcases hinv with hA | ⟨hB1, _⟩ | ⟨hC1, _⟩
        · subst hA
          have hk : k = CallKind.Close := by
            have := (closeInit_thread c r calls i k _ hth).1
            cases k
            · rfl
            · cases this
          subst hk
          refine Or.inr (Or.inl ⟨rfl, hc2, i, ClosePhase.won, ?_, Or.inl ⟨rfl, rfl⟩, ?_⟩)
          · exact getElem?_set_self_of_some _ _ _ _ hth
          · intro j k' p' hj hjp
            simp only at hjp
            rw [List.getElem?_set_ne (fun e => hj e.symm)] at hjp
            exact closeInit_thread_idle c r calls j k' p' hjp
        · exact absurd hB1 hg
        · exact absurd hC1 hg
    | won =>
      simp only at hstep
      injection hstep with hstep
      subst hstep
      rcases hinv with hA | ⟨hB1, hB2, i0, a, hi0, hw, hoth⟩ | ⟨_, _, _, _, hall⟩
      · subst hA
        have := (closeInit_thread c r calls i k _ hth).1
        cases k <;> cases this
      · have hi : i = i0 := by
          by_contra hne
          rcases hoth i k _ hne hth with ⟨_, h⟩ | h <;> cases h
        subst hi
        rw [hth] at hi0
        simp only [Option.some.injEq, Prod.mk.injEq] at hi0
        obtain ⟨rfl, rfl⟩ := hi0
        have ht : s.teardowns = r := by
          rcases hw with ⟨_, h⟩ | ⟨h, _⟩ | ⟨h, _⟩
          · exact h
          · cases h
          · cases h
        refine Or.inr (Or.inl ⟨hB1, hB2, i, ClosePhase.ran (td r), ?_, ?_, ?_⟩)
        · simp only [ht]
          exact getElem?_set_self_of_some _ _ _ _ hth
        · exact Or.inr (Or.inl ⟨rfl, by simp [ht]⟩)
        · intro j k' p' hj hjp
          simp only at hjp
          rw [List.getElem?_set_ne (fun e => hj e.symm)] at hjp
          exact hoth j k' p' hj hjp
      · rcases hall i k _ hth with ⟨_, h⟩ | h | h <;> cases h
    | ran e =>
      simp only at hstep
      injection hstep with hstep
      subst hstep
      rcases hinv with hA | ⟨hB1, hB2, i0, a, hi0, hw, hoth⟩ | ⟨_, _, _, _, hall⟩
      · subst hA
        have := (closeInit_thread c r calls i k _ hth).1
        cases k <;> cases this
      · have hi : i = i0 := by
          by_contra hne
          rcases hoth i k _ hne hth with ⟨_, h⟩ | h <;> cases h
        subst hi
        rw [hth] at hi0
        simp only [Option.some.injEq, Prod.mk.injEq] at hi0
        obtain ⟨rfl, rfl⟩ := hi0
        have ht : e = td r ∧ s.teardowns = r + 1 := by
          rcases hw with ⟨h, _⟩ | ⟨h, h'⟩ | ⟨h, _⟩
          · cases h
          · exact ⟨by injection h, h'⟩
          · cases h
        refine Or.inr (Or.inl ⟨hB1, hB2, i, ClosePhase.stored, ?_, ?_, ?_⟩)
        · exact getElem?_set_self_of_some _ _ _ _ hth
        · exact Or.inr (Or.inr ⟨rfl, ht.2, ht.1⟩)
        · intro j k' p' hj hjp
          simp only at hjp
          rw [List.getElem?_set_ne (fun e => hj e.symm)] at hjp
          exact hoth j k' p' hj hjp
      · rcases hall i k _ hth with ⟨_, h⟩ | h | h <;> cases h
    | stored =>
      simp only at hstep
      injection hstep with hstep
      subst hstep
      rcases hinv with hA | ⟨hB1, hB2, i0, a, hi0, hw, hoth⟩ | ⟨_, _, _, _, hall⟩
      · subst hA
        have := (closeInit_thread c r calls i k _ hth).1
        cases k <;> cases this
      · have hi : i = i0 := by
          by_contra hne
          rcases hoth i k _ hne hth with ⟨_, h⟩ | h <;> cases h
        subst hi
        rw [hth] at hi0
        simp only [Option.some.injEq, Prod.mk.injEq] at hi0
        obtain ⟨rfl, rfl⟩ := hi0
        have ht : s.teardowns = r + 1 ∧ s.conn.CloseErr = td r := by
          rcases hw with ⟨h, _⟩ | ⟨h, _⟩ | ⟨_, h⟩
          · cases h
          · cases h
          · exact h
        refine Or.inr (Or.inr ⟨hB1, rfl, ht.1, ht.2, ?_⟩)
        intro j k' p' hjp
        rcases getElem?_set_cases _ _ _ _ _ hjp with ⟨_, he⟩ | ⟨hj, hold⟩
        · simp only [Prod.mk.injEq] at he
          exact Or.inr (Or.inl he.2)
        · rcases hoth j k' p' hj hold with h | h
          · exact Or.inl h
          · exact Or.inr (Or.inl h)
      · rcases hall i k _ hth with ⟨_, h⟩ | h | h <;> cases h
    | waiting =>
      simp only at hstep
      by_cases hd : s.conn.Done = Chan.closed
      · rw [if_pos hd] at hstep
        injection hstep with hstep
        subst hstep
        rcases hinv with hA | ⟨_, hB2, _⟩ | ⟨hC1, hC2, hC3, hC4, hall⟩
        · subst hA
          exact absurd hd hc2
        · exact absurd hd hB2
        · refine Or.inr (Or.inr ⟨hC1, hC2, hC3, hC4, ?_⟩)
          intro j k' p' hjp
          rcases getElem?_set_cases _ _ _ _ _ hjp with ⟨_, he⟩ | ⟨_, hold⟩
          · simp only [Prod.mk.injEq] at he
            exact Or.inr (Or.inr (by rw [he.2, hC4]))
          · exact hall j k' p' hold
      · rw [if_neg hd] at hstep
        cases hstep
    | returned e =>
      simp only at hstep
      cases hstep

theorem closeExec_inv (td : Nat → GoError) (c : BasicConn) (r : Nat) (calls : List CallKind)
    (hc1 : c.CloseOnce = false) (hc2 : c.Done ≠ Chan.closed) (sched : List Nat)
    (s s' : CloseSys) (hinv : CloseInv td c r calls s) (hexec : closeExec td sched s = some s') :
    CloseInv td c r calls s' := by
  induction sched generalizing s with
  | nil =>
    simp only [closeExec, Option.some.injEq] at hexec
    exact hexec ▸ hinv
  | cons i rest ih =>
    simp only [closeExec] at hexec
    cases hst : closeStep td i s with
    | none => simp [hst] at hexec
    | some s1 =>
      rw [hst] at hexec
      exact ih s1 (closeStep_inv td c r calls hc1 hc2 i s s1 hinv hst) hexec

theorem closeExec_reachable (td : Nat → GoError) (c : BasicConn) (r : Nat)
    (calls : List CallKind) (hc1 : c.CloseOnce = false) (hc2 : c.Done ≠ Chan.closed)
    (sched : List Nat) (s : CloseSys)
    (hexec : closeExec td sched (closeInit c r calls) = some s) : CloseInv td c r calls s :=
  closeExec_inv td c r calls hc1 hc2 sched _ s (Or.inl rfl) hexec

theorem weight_set_lt (l : List (CallKind × ClosePhase)) (i : Nat) (t t' : CallKind × ClosePhase)
    (h : l[i]? = some t) (hw : phaseWeight t'.2 < phaseWeight t.2) :
    ((l.set i t').map (fun x => phaseWeight x.2)).sum < (l.map (fun x => phaseWeight x.2)).sum := by
  induction l generalizing i with
  | nil => simp at h
  | cons x l ih =>
    cases i with
    | zero =>
      simp only [List.getElem?_cons_zero, Option.some.injEq] at h
      subst h
      simp only [List.set_cons_zero, List.map_cons, List.sum_cons]
      omega
    | succ i =>
      simp only [List.getElem?_cons_succ] at h
      have := ih i h
      simp only [List.set_cons_succ, List.map_cons, List.sum_cons]
      omega

/-- Every step uses up at least one unit of the measure. -/
theorem closeStep_measure (td : Nat → GoError) (i : Nat) (s s' : CloseSys)
    (hstep : closeStep td i s = some s') : closeMeasure s' < closeMeasure s := by
  unfold closeStep at hstep
  cases hth : s.threads[i]? with
  | none => simp [hth] at hstep
  | some t =>
    obtain ⟨k, p⟩ := t
    rw [hth] at hstep
    cases p with
    | start =>
      simp only at hstep
      split_ifs at hstep <;>
      · injection hstep with hstep
        subst hstep
        exact weight_set_lt _ _ _ _ hth (by simp [phaseWeight])
    | won =>
      simp only at hstep
      injection hstep with hstep
      subst hstep
      exact weight_set_lt _ _ _ _ hth (by simp [phaseWeight])
    | ran e =>
      simp only at hstep
      injection hstep with hstep
      subst hstep
      exact weight_set_lt _ _ _ _ hth (by simp [phaseWeight])
    | stored =>
      simp only at hstep
      injection hstep with hstep
      subst hstep
      exact weight_set_lt _ _ _ _ hth (by simp [phaseWeight])
    | waiting =>
      simp only at hstep
      split_ifs at hstep
      injection hstep with hstep
      subst hstep
      exact weight_set_lt _ _ _ _ hth (by simp [phaseWeight])
    | returned e =>
      simp only at hstep
      cases hstep

theorem closeExec_measure (td : Nat → GoError) (sched : List Nat) (s s' : CloseSys)
    (hexec : closeExec td sched s = some s') :
    closeMeasure s' + sched.length ≤ closeMeasure s := by
  induction sched generalizing s with
  | nil =>
    simp only [closeExec, Option.some.injEq] at hexec
    subst hexec
    simp
  | cons i rest ih =>
    simp only [closeExec] at hexec
    cases hst : closeStep td i s with
    | none => simp [hst] at hexec
    | some s1 =>
      rw [hst] at hexec
      have h1 := closeStep_measure td i s s1 hst
      have h2 := ih s1 hexec
      simp only [List.length_cons]
      omega

theorem closeInit_measure (c : BasicConn) (r : Nat) (calls : List CallKind) :
    closeMeasure (closeInit c r calls) ≤ 5 * calls.length := by
  simp only [closeMeasure, closeInit, List.map_map]
  induction calls with
  | nil => simp
  | cons k calls ih =>
    simp only [List.map_cons, List.sum_cons, List.length_cons, Function.comp_apply]
    have : phaseWeight (initPhase k) ≤ 5 := by cases k <;> decide
    omega

theorem closeStep_enabled (td : Nat → GoError) (i : Nat) (s : CloseSys) (k : CallKind)
    (p : ClosePhase) (hth : s.threads[i]? = some (k, p))
    (hp : p = ClosePhase.start ∨ p = ClosePhase.won ∨ (∃ e, p = ClosePhase.ran e) ∨
      p = ClosePhase.stored ∨ (p = ClosePhase.waiting ∧ s.conn.Done = Chan.closed)) :
    ∃ s', closeStep td i s = some s' := by
  unfold closeStep
  rw [hth]
  rcases hp with rfl | rfl | ⟨e, rfl⟩ | rfl | ⟨rfl, hd⟩
  · simp only
    split_ifs <;> exact ⟨_, rfl⟩
  · exact ⟨_, rfl⟩
  · exact ⟨_, rfl⟩
  · exact ⟨_, rfl⟩
  · simp only [hd, if_true]
    exact ⟨_, rfl⟩

/-- While some invocation has not returned, some invocation can take a step. -/
theorem closeStep_progress (td : Nat → GoError) (c : BasicConn) (r : Nat)
    (calls : List CallKind) (hcalls : CallKind.Close ∈ calls) (s : CloseSys)
    (hinv : CloseInv td c r calls s)
    (hlive : ∃ (j : Nat) (k : CallKind) (p : ClosePhase),
      s.threads[j]? = some (k, p) ∧ ∀ e, p ≠ ClosePhase.returned e) :
    ∃ i s', closeStep td i s = some s' := by
  rcases hinv with hA | ⟨_, _, i0, a, hi0, hw, _⟩ | ⟨_, hC2, _, _, hall⟩
  · subst hA
    obtain ⟨j, hj⟩ := List.mem_iff_getElem?.mp hcalls
    have hth : (closeInit c r calls).threads[j]? = some (CallKind.Close, ClosePhase.start) := by
      simp [closeInit, hj, initPhase]
    exact ⟨j, closeStep_enabled td j _ _ _ hth (Or.inl rfl)⟩
  · refine ⟨i0, closeStep_enabled td i0 s _ _ hi0 ?_⟩
    rcases hw with ⟨h, _⟩ | ⟨h, _⟩ | ⟨h, _⟩
    · exact Or.inr (Or.inl h)
    · exact Or.inr (Or.inr (Or.inl ⟨_, h⟩))
    · exact Or.inr (Or.inr (Or.inr (Or.inl h)))
  · obtain ⟨j, k, p, hth, hp⟩ := hlive
    refine ⟨j, closeStep_enabled td j s _ _ hth ?_⟩
    rcases hall j k p hth with ⟨_, h⟩ | h | h
    · exact Or.inl h
    · exact Or.inr (Or.inr (Or.inr (Or.inr ⟨h, hC2⟩)))
    · exact absurd h (hp _)

/-- From every state the protocol reaches, the invocations can all be run to their
return. -/
theorem closeExec_completes (td : Nat → GoError) (c : BasicConn) (r : Nat)
    (calls : List CallKind) (hc1 : c.CloseOnce = false) (hc2 : c.Done ≠ Chan.closed)
    (hcalls : CallKind.Close ∈ calls) (n : Nat) (s : CloseSys)
    (hn : closeMeasure s ≤ n) (hinv : CloseInv td c r calls s) :
    ∃ rest s', closeExec td rest s = some s' ∧
      ∀ (j : Nat) (k : CallKind) (p : ClosePhase), s'.threads[j]? = some (k, p) →
        ∃ e, p = ClosePhase.returned e := by
  induction n generalizing s with
  | zero =>
    by_cases hall : ∀ (j : Nat) (k : CallKind) (p : ClosePhase), s.threads[j]? = some (k, p) →
        ∃ e, p = ClosePhase.returned e
    · exact ⟨[], s, rfl, hall⟩
    · push_neg at hall
      obtain ⟨i, s1, hst⟩ := closeStep_progress td c r calls hcalls s hinv hall
      have := closeStep_measure td i s s1 hst
      omega
  | succ n ih =>
    by_cases hall : ∀ (j : Nat) (k : CallKind) (p : ClosePhase), s.threads[j]? = some (k, p) →
        ∃ e, p = ClosePhase.returned e
    · exact ⟨[], s, rfl, hall⟩
    · push_neg at hall
      obtain ⟨i, s1, hst⟩ := closeStep_progress td c r calls hcalls s hinv hall
      have hm := closeStep_measure td i s s1 hst
      obtain ⟨rest, s', hex, hret⟩ := ih s1 (by omega)
        (closeStep_inv td c r calls hc1 hc2 i s s1 hinv hst)
      exact ⟨i :: rest, s', by simp [closeExec, hst, hex], hret⟩

theorem closeInv_teardowns (td : Nat → GoError) (c : BasicConn) (r : Nat)
    (calls : List CallKind) (s : CloseSys) (hinv : CloseInv td c r calls s) :
    r ≤ s.teardowns ∧ s.teardowns ≤ r + 1 := by
  rcases hinv with hA | ⟨_, _, i0, a, _, hw, _⟩ | ⟨_, _, hC3, _, _⟩
  · subst hA
    simp [closeInit]
  · rcases hw with ⟨_, h⟩ | ⟨_, h⟩ | ⟨_, h, _⟩ <;> omega
  · omega

theorem closeInv_returned (td : Nat → GoError) (c : BasicConn) (r : Nat)
    (calls : List CallKind) (s : CloseSys) (hinv : CloseInv td c r calls s)
    (j : Nat) (k : CallKind) (e : GoError)
    (hth : s.threads[j]? = some (k, ClosePhase.returned e)) :
    e = td r ∧ s.teardowns = r + 1 ∧ s.conn.CloseErr = td r ∧ s.conn.Done = Chan.closed := by
  rcases hinv with hA | ⟨_, _, i0, a, hi0, hw, hoth⟩ | ⟨_, hC2, hC3, hC4, hall⟩
  · subst hA
    have := (closeInit_thread c r calls j k _ hth).1
    cases k <;> cases this
  · by_cases hj : j = i0
    · subst hj
      rw [hth] at hi0
      simp only [Option.some.injEq, Prod.mk.injEq] at hi0
      obtain ⟨_, rfl⟩ := hi0
      rcases hw with ⟨h, _⟩ | ⟨h, _⟩ | ⟨h, _⟩ <;> cases h
    · rcases hoth j k _ hj hth with ⟨_, h⟩ | h <;> cases h
  · rcases hall j k _ hth with ⟨_, h⟩ | h | h
    · cases h
    · cases h
    · injection h with h
      exact ⟨h, hC3, hC4, hC2⟩

theorem closeInv_waiter (td : Nat → GoError) (c : BasicConn) (r : Nat)
    (calls : List CallKind) (s : CloseSys) (hinv : CloseInv td c r calls s)
    (j : Nat) (p : ClosePhase) (hth : s.threads[j]? = some (CallKind.WaitForClose, p)) :
    p = ClosePhase.waiting ∨ p = ClosePhase.returned (td r) := by
  rcases hinv with hA | ⟨_, _, i0, a, hi0, _, hoth⟩ | ⟨_, _, _, _, hall⟩
  · subst hA
    exact Or.inl (closeInit_thread c r calls j _ _ hth).1
  · by_cases hj : j = i0
    · subst hj
      rw [hth] at hi0
      simp at hi0
    · rcases hoth j _ _ hj hth with ⟨h, _⟩ | h
      · cases h
      · exact Or.inl h
  · rcases hall j _ _ hth with ⟨h, _⟩ | h | h
    · cases h
    · exact Or.inl h
    · exact Or.inr h

theorem closeInv_all_returned (td : Nat → GoError) (c : BasicConn) (r : Nat)
    (calls : List CallKind) (hcalls : CallKind.Close ∈ calls) (s : CloseSys)
    (hinv : CloseInv td c r calls s)
    (hall : ∀ (j : Nat) (k : CallKind) (p : ClosePhase), s.threads[j]? = some (k, p) →
      ∃ e, p = ClosePhase.returned e) :
    s.teardowns = r + 1 := by
  rcases hinv with hA | ⟨_, _, i0, a, hi0, hw, _⟩ | ⟨_, _, hC3, _, _⟩
  · subst hA
    obtain ⟨j, hj⟩ := List.mem_iff_getElem?.mp hcalls
    have hth : (closeInit c r calls).threads[j]? = some (CallKind.Close, ClosePhase.start) := by
      simp [closeInit, hj, initPhase]
    obtain ⟨e, he⟩ := hall j _ _ hth
    cases he
  · obtain ⟨e, rfl⟩ := hall i0 _ _ hi0
    rcases hw with ⟨h, _⟩ | ⟨h, _⟩ | ⟨h, _⟩ <;> cases h
  · exact hC3

theorem kinds_set (l : List (CallKind × ClosePhase)) (i : Nat) (k : CallKind)
    (p p' : ClosePhase) (h : l[i]? = some (k, p)) :
    (l.set i (k, p')).map Prod.fst = l.map Prod.fst := by
  induction l generalizing i with
  | nil => simp at h
  | cons x l ih =>
    cases i with
    | zero =>
      simp only [List.getElem?_cons_zero, Option.some.injEq] at h
      subst h
      simp
    | succ i =>
      simp only [List.getElem?_cons_succ] at h
      simp [ih i h]

theorem closeStep_kinds (td : Nat → GoError) (i : Nat) (s s' : CloseSys)
    (hstep : closeStep td i s = some s') :
    s'.threads.map Prod.fst = s.threads.map Prod.fst := by
  unfold closeStep at hstep
  cases hth : s.threads[i]? with
  | none => simp [hth] at hstep
  | some t =>
    obtain ⟨k, p⟩ := t
    rw [hth] at hstep
    cases p with
    | start =>
      simp only at hstep
      split_ifs at hstep <;>
      · injection hstep with hstep
        subst hstep
        exact kinds_set _ _ _ _ _ hth
    | won =>
      simp only at hstep
      injection hstep with hstep
      subst hstep
      exact kinds_set _ _ _ _ _ hth
    | ran e =>
      simp only at hstep
      injection hstep with hstep
      subst hstep
      exact kinds_set _ _ _ _ _ hth
    | stored =>
      simp only at hstep
      injection hstep with hstep
      subst hstep
      exact kinds_set _ _ _ _ _ hth
    | waiting =>
      simp only at hstep
      split_ifs at hstep
      injection hstep with hstep
      subst hstep
      exact kinds_set _ _ _ _ _ hth
    | returned e =>
      simp only at hstep
      cases hstep

theorem closeExec_kinds (td : Nat → GoError) (sched : List Nat) (s s' : CloseSys)
    (hexec : closeExec td sched s = some s') :
    s'.threads.map Prod.fst = s.threads.map Prod.fst := by
  induction sched generalizing s with
  | nil =>
    simp only [closeExec, Option.some.injEq] at hexec
    rw [hexec]
  | cons i rest ih =>
    simp only [closeExec] at hexec
    cases hst : closeStep td i s with
    | none => simp [hst] at hexec
    | some s1 =>
      rw [hst] at hexec
      rw [ih s1 hexec, closeStep_kinds td i s s1 hst]

/-- C4 (on the close algorithm of the spec, whose code is outside `conn.go`): on a
connection whose guard is free and whose signal is unset, with any invocations of
`Close()` (at least one) and `WaitForClose()` in flight and interleaved in any
order, in every state `s` a schedule reaches: the invocations are still the ones
made; the teardown action has run at most once since the start; every invocation
that has returned has returned the result `td r` of that single run, which is also
the cached `CloseErr`, so no invocation returns anything else; the schedule is at
most `5` steps per invocation long; as long as some invocation has not returned,
some invocation can step; and the run can be continued to a state where every
invocation has returned `td r` and teardown has run exactly once. -/
theorem close_runs_teardown_once (td : Nat → GoError) (c : BasicConn) (r : Nat)
    (calls : List CallKind) (sched : List Nat) (s : CloseSys)
    (hc1 : c.CloseOnce = false) (hc2 : c.Done ≠ Chan.closed)
    (hcalls : CallKind.Close ∈ calls)
    (hexec : closeExec td sched (closeInit c r calls) = some s) :
    s.threads.map Prod.fst = calls ∧
    r ≤ s.teardowns ∧ s.teardowns ≤ r + 1 ∧
    (∀ (j : Nat) (k : CallKind) (e : GoError),
      s.threads[j]? = some (k, ClosePhase.returned e) →
        e = td r ∧ s.teardowns = r + 1 ∧ s.conn.CloseErr = td r) ∧
    sched.length ≤ 5 * calls.length ∧
    ((∃ (j : Nat) (k : CallKind) (p : ClosePhase),
        s.threads[j]? = some (k, p) ∧ ∀ e, p ≠ ClosePhase.returned e) →
      ∃ i s', closeStep td i s = some s') ∧
    (∃ rest s', closeExec td rest s = some s' ∧ s'.teardowns = r + 1 ∧
      s'.threads = calls.map (fun k => (k, ClosePhase.returned (td r)))) := by
  have hinv := closeExec_reachable td c r calls hc1 hc2 sched s hexec
  have hkinds : s.threads.map Prod.fst = calls := by
    rw [closeExec_kinds td sched _ s hexec]
    simp [closeInit, Function.comp_def]
  have hlen : sched.length ≤ 5 * calls.length := by
    have h1 := closeExec_measure td sched _ s hexec
    have h2 := closeInit_measure c r calls
    omega
  refine ⟨hkinds, (closeInv_teardowns td c r calls s hinv).1,
    (closeInv_teardowns td c r calls s hinv).2, ?_, hlen,
    closeStep_progress td c r calls hcalls s hinv, ?_⟩
  · intro j k e hth
    have h := closeInv_returned td c r calls s hinv j k e hth
    exact ⟨h.1, h.2.1, h.2.2.1⟩
  · obtain ⟨rest, s', hex, hret⟩ :=
      closeExec_completes td c r calls hc1 hc2 hcalls (closeMeasure s) s (le_refl _) hinv
    have hinv' := closeExec_inv td c r calls hc1 hc2 rest s s' hinv hex
    refine ⟨rest, s', hex, closeInv_all_returned td c r calls hcalls s' hinv' hret, ?_⟩
    have hk' : s'.threads.map Prod.fst = calls := by
      rw [closeExec_kinds td rest s s' hex, hkinds]
    apply List.ext_getElem?
    intro j
    rw [List.getElem?_map, ← hk', List.getElem?_map]
    cases hj : s'.threads[j]? with
    | none => rfl
    | some t =>
      obtain ⟨k, p⟩ := t
      obtain ⟨e, rfl⟩ := hret j k p hj
      have he := (closeInv_returned td c r calls s' hinv' j k e hj).1
      simp [he]

/-- Witness for C4: two concurrent `Close()` calls on a new connection, the second
trying the guard while the first holds it; teardown fails with `"EOF"`. -/
theorem close_runs_teardown_once_witness :
    ({ conn := { exampleConn with CloseOnce := true, CloseErr := some "EOF", Done := Chan.closed },
       teardowns := 1,
       threads := [(CallKind.Close, ClosePhase.returned (some "EOF")),
                   (CallKind.Close, ClosePhase.returned (some "EOF"))] } : CloseSys).teardowns
        ≤ 0 + 1 ∧
    some "EOF" = exampleTeardown 0 ∧
    [0, 1, 0, 0, 0, 1, 0].length ≤ 5 * [CallKind.Close, CallKind.Close].length :=
  have h := close_runs_teardown_once exampleTeardown exampleConn 0
    [CallKind.Close, CallKind.Close] [0, 1, 0, 0, 0, 1, 0]
    { conn := { exampleConn with CloseOnce := true, CloseErr := some "EOF", Done := Chan.closed },
      teardowns := 1,
      threads := [(CallKind.Close, ClosePhase.returned (some "EOF")),
                  (CallKind.Close, ClosePhase.returned (some "EOF"))] }
    (by decide) (by decide) (by decide) (by decide)
  ⟨h.2.2.1, (h.2.2.2.1 1 CallKind.Close (some "EOF") rfl).1, h.2.2.2.2.1⟩

/-- C5 (on the close algorithm of the spec, whose code is outside `conn.go`): in every
state the protocol reaches, a step of a `WaitForClose()` invocation leaves the
connection, its cached `CloseErr` included, and the teardown count as they were;
and once some `Close()` has returned `e`, a `WaitForClose()` that has not yet
returned is not blocked: its next step returns exactly `e`, the cached
`CloseErr`. -/
theorem waitForClose_returns_cached (td : Nat → GoError) (c : BasicConn) (r : Nat)
    (calls : List CallKind) (sched : List Nat) (s : CloseSys)
    (hc1 : c.CloseOnce = false) (hc2 : c.Done ≠ Chan.closed)
    (hexec : closeExec td sched (closeInit c r calls) = some s) :
    (∀ (k : Nat) (p : ClosePhase) (s' : CloseSys),
      s.threads[k]? = some (CallKind.WaitForClose, p) → closeStep td k s = some s' →
        s'.conn = s.conn ∧ s'.teardowns = s.teardowns) ∧
    (∀ (j k : Nat) (e : GoError),
      s.threads[j]? = some (CallKind.Close, ClosePhase.returned e) →
      s.threads[k]? = some (CallKind.WaitForClose, ClosePhase.waiting) →
        e = s.conn.CloseErr ∧
        ∃ s', closeStep td k s = some s' ∧
          s'.threads[k]? = some (CallKind.WaitForClose, ClosePhase.returned e) ∧
          s'.conn = s.conn ∧ s'.teardowns = s.teardowns) := by
  have hinv := closeExec_reachable td c r calls hc1 hc2 sched s hexec
  constructor
  · intro k p s' hth hstep
    unfold closeStep at hstep
    rw [hth] at hstep
    rcases closeInv_waiter td c r calls s hinv k p hth with rfl | rfl
    · simp only at hstep
      split_ifs at hstep
      injection hstep with hstep
      subst hstep
      exact ⟨rfl, rfl⟩
    · simp only at hstep
      cases hstep
  · intro j k e hj hk
    obtain ⟨he, _, herr, hdone⟩ := closeInv_returned td c r calls s hinv j _ e hj
    refine ⟨by rw [he, herr], ?_⟩
    refine ⟨{ s with
      threads := List.set s.threads k
        (CallKind.WaitForClose, ClosePhase.returned s.conn.CloseErr) }, ?_, ?_, rfl, rfl⟩
    · unfold closeStep
      rw [hk]
      simp [hdone]
    · simp only
      rw [getElem?_set_self_of_some _ _ _ _ hk, he, herr]

/-- Witness for C5: a `Close()` that ran to its return with `"EOF"`, then a
`WaitForClose()` call. -/
theorem waitForClose_returns_cached_witness :
    some "EOF" = ({ exampleConn with
        CloseOnce := true, CloseErr := some "EOF", Done := Chan.closed } : BasicConn).CloseErr ∧
    ∃ s', closeStep exampleTeardown 1
        { conn := { exampleConn with
            CloseOnce := true, CloseErr := some "EOF", Done := Chan.closed },
          teardowns := 1,
          threads := [(CallKind.Close, ClosePhase.returned (some "EOF")),
                      (CallKind.WaitForClose, ClosePhase.waiting)] } = some s' ∧
      s'.threads[1]? = some (CallKind.WaitForClose, ClosePhase.returned (some "EOF")) ∧
      s'.conn = { exampleConn with
        CloseOnce := true, CloseErr := some "EOF", Done := Chan.closed } ∧
      s'.teardowns = 1 :=
  (waitForClose_returns_cached exampleTeardown exampleConn 0
    [CallKind.Close, CallKind.WaitForClose] [0, 0, 0, 0, 0]
    { conn := { exampleConn with CloseOnce := true, CloseErr := some "EOF", Done := Chan.closed },
      teardowns := 1,
      threads := [(CallKind.Close, ClosePhase.returned (some "EOF")),
                  (CallKind.WaitForClose, ClosePhase.waiting)] }
    (by decide) (by decide) (by decide)).2 0 1 (some "EOF") rfl rfl

end Chshare
